import Mathlib

/-!
# Verification of the redis-zset-ts time-series layer

Shallow embedding of `src/lib.rs` and `src/time_series.rs`.

* `f64` values are modelled as exact rationals (`ℚ`) in the main model;
  a second model (`fl`, round-to-nearest-even at 53 bits of precision)
  captures IEEE-754 binary64 rounding where a claim is about it.
* The Redis sorted set is a list of scored byte members, kept in the
  ascending score order Redis maintains; `zrangebyscore`/`zrembyscore`
  are score-range filter operations on it.
* The msgpack codec is an abstract encode/decode function pair.
* Fallible calls return an outcome type; a Rust abort through `.unwrap()`
  is a distinct `panicked` outcome, separate from returning an
  `Err` value.
-/

namespace RedisZsetTs

/-- Rust `f64::round()`: round to the nearest integer, ties away from zero
(std semantics of the `round` method used throughout the source). -/
def rustRound (x : ℚ) : ℤ :=
  if 0 ≤ x then ⌊x + 1 / 2⌋ else -⌊-x + 1 / 2⌋

/-- `pub struct Timestamp(f64);` (time_series.rs) — the raw seconds value. -/
structure Timestamp where
  val : ℚ
deriving DecidableEq

/-- `Timestamp::with_resolution_f64(st, res)`:
`Self(res * (ts / res).round())` where `ts` is `st` as seconds since the
Unix epoch (time_series.rs, lines 51–57).  System times are modelled as
rational seconds since the epoch. -/
def Timestamp.withResolutionF64 (st res : ℚ) : Timestamp :=
  ⟨res * (rustRound (st / res) : ℚ)⟩

/-- `impl From<SystemTime> for Timestamp`:
`Self(1.0e-6 * (ts / 1.0e-6).round())` (time_series.rs, lines 77–85).
The literal `1.0e-6` is taken at its exact value `1/1000000` in this
exact-arithmetic model. -/
def Timestamp.fromSystemTime (st : ℚ) : Timestamp :=
  ⟨1 / 1000000 * (rustRound (st / (1 / 1000000)) : ℚ)⟩

/-- `Timestamp::now()` = `Self::from(SystemTime::now())`, given the current
system time `st`. -/
def Timestamp.now (st : ℚ) : Timestamp :=
  Timestamp.fromSystemTime st

/-- `impl From<f64> for Timestamp`: `Self(val)` — wraps the raw value with
no quantization (time_series.rs, lines 71–75). -/
def Timestamp.fromF64 (v : ℚ) : Timestamp :=
  ⟨v⟩

/-- `Timestamp::as_f64()`. -/
def Timestamp.asF64 (t : Timestamp) : ℚ :=
  t.val

/-- `impl Add<f64> for Timestamp`: `Self(self.0 + dur)` (lines 93–99). -/
def Timestamp.addF64 (t : Timestamp) (dur : ℚ) : Timestamp :=
  ⟨t.val + dur⟩

/-- `impl Sub<f64> for Timestamp`: `Self(self.0 - dur)` (lines 107–113). -/
def Timestamp.subF64 (t : Timestamp) (dur : ℚ) : Timestamp :=
  ⟨t.val - dur⟩

/-- `impl Add<Duration> for Timestamp`: `Self(self.0 + dur.as_secs_f64())`
(lines 121–127); the duration is its value in seconds. -/
def Timestamp.addDuration (t : Timestamp) (dur : ℚ) : Timestamp :=
  ⟨t.val + dur⟩

/-- `impl Sub<Duration> for Timestamp` (lines 135–141). -/
def Timestamp.subDuration (t : Timestamp) (dur : ℚ) : Timestamp :=
  ⟨t.val - dur⟩

/-- `as_timestamp(st)` (lib.rs, lines 40–46): `(ts * 1.0e6).round() / 1.0e6`
in exact arithmetic. -/
def asTimestamp (st : ℚ) : ℚ :=
  (rustRound (st * 1000000) : ℚ) / 1000000

/-! ## The scored-set store (Redis sorted set) and the `TimeSeries` operations

The store is the sorted set at the series key: a list of byte members with
scores, in the ascending score order Redis maintains.  Score-range bounds
follow the ZRANGEBYSCORE grammar the source emits: a bare number is
inclusive, a `"(x"` string is exclusive, `"-inf"`/`"+inf"` are infinities.
-/

/-- A msgpack-encoded member, as raw bytes. -/
abbrev Bytes := List Nat

/-- One member of the sorted set with its score. -/
structure Entry where
  score : ℚ
  member : Bytes
deriving DecidableEq

/-- A score bound in the ZRANGEBYSCORE / ZREMRANGEBYSCORE grammar. -/
inductive Bound where
  | negInf : Bound
  | posInf : Bound
  | incl : ℚ → Bound
  | excl : ℚ → Bound
deriving DecidableEq

/-- Does a score satisfy this bound as a lower bound? -/
def Bound.lowerHolds : Bound → ℚ → Bool
  | .negInf, _ => true
  | .posInf, _ => false
  | .incl a, s => a ≤ s
  | .excl a, s => a < s

/-- Does a score satisfy this bound as an upper bound? -/
def Bound.upperHolds : Bound → ℚ → Bool
  | .negInf, _ => false
  | .posInf, _ => true
  | .incl b, s => s ≤ b
  | .excl b, s => s < b

/-- `ZRANGEBYSCORE key lo hi`: the members whose score lies in the range,
in the store's (ascending-score) order. -/
def zrangebyscore (store : List Entry) (lo hi : Bound) : List Entry :=
  store.filter fun e => lo.lowerHolds e.score && hi.upperHolds e.score

/-- `ZREMRANGEBYSCORE key lo hi`: the store after removing the members
whose score lies in the range. -/
def zrembyscore (store : List Entry) (lo hi : Bound) : List Entry :=
  store.filter fun e => !(lo.lowerHolds e.score && hi.upperHolds e.score)

/-- `TimeSeries::purge_before(ts)` (time_series.rs, lines 272–279):
`zrembyscore(key, "-inf", format!("({}", ts))` — a single
remove-by-score-range command with bounds `-inf` and exclusive `ts`.
Returns the resulting store contents. -/
def purgeBefore (store : List Entry) (ts : Timestamp) : List Entry :=
  zrembyscore store .negInf (.excl ts.val)

/-- `TimeSeries::purge_older_than(dur)` (lines 286–288):
`purge_before(SystemTime::now() - dur)`; `nowSt` is the current system
time in seconds, and the `SystemTime` argument is converted through
`From<SystemTime>` (microsecond quantization). -/
def purgeOlderThan (store : List Entry) (nowSt dur : ℚ) : List Entry :=
  purgeBefore store (Timestamp.fromSystemTime (nowSt - dur))

/-- `TimeValue<T>` (time_series.rs, lines 161–166). -/
structure TimeValue (V : Type) where
  timestamp : Timestamp
  value : V
deriving DecidableEq

/-- The error taxonomy of `lib.rs` (`enum Error`), restricted to the tags
the claims mention. -/
inductive ErrKind where
  | encodeError : ErrKind
  | decodeError : ErrKind
  | redisError : ErrKind
deriving DecidableEq

/-- Outcome of a read call.  `ok` is `Ok(vec)`; `err` is returning an
`Err(...)` value to the caller; `panicked` is a Rust panic (`.unwrap()` on
a failure), which returns no value at all. -/
inductive ReadOutcome (V : Type) where
  | ok : List (TimeValue V) → ReadOutcome V
  | err : ErrKind → ReadOutcome V
  | panicked : ReadOutcome V
deriving DecidableEq

/-- The decode loop of `get_range_any`
(`.map(|buf| rmps::decode::from_slice(buf).unwrap())`): decodes each
member in order; `none` means some member failed to decode, which the
source turns into a panic via `.unwrap()`. -/
def decodeAll {V : Type} (dec : Bytes → Option (ℚ × V)) :
    List Entry → Option (List (TimeValue V))
  | [] => some []
  | e :: es =>
    (dec e.member).bind fun p =>
      (decodeAll dec es).map fun rest => ⟨⟨p.1⟩, p.2⟩ :: rest

/-- `TimeSeries::get_range_any(ts1, ts2)` (time_series.rs, lines 356–371):
`zrangebyscore` with the given raw bounds, then decode every member;
the per-member `.unwrap()` makes any decode failure a panic. -/
def getRangeAny {V : Type} (dec : Bytes → Option (ℚ × V))
    (store : List Entry) (lo hi : Bound) : ReadOutcome V :=
  match decodeAll dec (zrangebyscore store lo hi) with
  | some vs => .ok vs
  | none => .panicked

/-- `TimeSeries::get_range(ts1, ts2)` (lines 375–382):
`get_range_any(ts1.into().0, format!("({}", ts2.into()))` — inclusive
numeric lower bound, exclusive upper bound. -/
def getRange {V : Type} (dec : Bytes → Option (ℚ × V))
    (store : List Entry) (ts1 ts2 : Timestamp) : ReadOutcome V :=
  getRangeAny dec store (.incl ts1.val) (.excl ts2.val)

/-- `TimeSeries::get_from(ts)` (lines 385–390):
`get_range_any(ts.into().0, "+inf")`. -/
def getFrom {V : Type} (dec : Bytes → Option (ℚ × V))
    (store : List Entry) (ts : Timestamp) : ReadOutcome V :=
  getRangeAny dec store (.incl ts.val) .posInf

/-- `TimeSeries::get_last(dur)` (lines 393–395):
`get_from(SystemTime::now() - dur)`, the system time converted through
`From<SystemTime>`. -/
def getLast {V : Type} (dec : Bytes → Option (ℚ × V))
    (store : List Entry) (nowSt dur : ℚ) : ReadOutcome V :=
  getFrom dec store (Timestamp.fromSystemTime (nowSt - dur))

/-- `TimeSeries::get_all()` (lines 399–401):
`get_range_any("-inf", "+inf")`. -/
def getAll {V : Type} (dec : Bytes → Option (ℚ × V))
    (store : List Entry) : ReadOutcome V :=
  getRangeAny dec store .negInf .posInf

/-- A store command issued by a write path: member bytes with their score.
The source issues `zadd` (single point) or `zadd_multiple` (batch). -/
inductive StoreCmd where
  | zadd : ℚ → Bytes → StoreCmd
  | zaddMultiple : List (ℚ × Bytes) → StoreCmd
deriving DecidableEq

/-- Outcome of a write call: `ok cmds` lists exactly the store commands
issued; on `errEncode` (an `Err(Error::MsgPackEncode)` return) and on
`panicked` (an `.unwrap()` panic) the failure happens before any store
command is issued, so none is. -/
inductive WriteOutcome where
  | ok : List StoreCmd → WriteOutcome
  | errEncode : WriteOutcome
  | panicked : WriteOutcome
deriving DecidableEq

/-- `TimeSeries::add(ts, val)` (time_series.rs, lines 299–307):
encode `(ts.0, val)`; on failure the `?` returns the encode error before
any store command; on success issue `zadd(key, rval, ts.0)`. -/
def add {V : Type} (enc : ℚ × V → Option Bytes)
    (ts : Timestamp) (v : V) : WriteOutcome :=
  match enc (ts.val, v) with
  | some rval => .ok [.zadd ts.val rval]
  | none => .errEncode

/-- `TimeSeries::add_now(val)` (lines 312–314): `add(Timestamp::now(), val)`. -/
def addNow {V : Type} (enc : ℚ × V → Option Bytes)
    (nowSt : ℚ) (v : V) : WriteOutcome :=
  add enc (Timestamp.now nowSt) v

/-- `TimeSeries::add_value(val)` (lines 317–323):
`add(val.timestamp, val.value)`. -/
def addValue {V : Type} (enc : ℚ × V → Option Bytes)
    (tv : TimeValue V) : WriteOutcome :=
  add enc tv.timestamp tv.value

/-- The encode loop of `add_multiple` (lines 327–333): for each value,
`(v.timestamp.0, to_vec_named(&(v.timestamp.0, &v.value)).unwrap())`;
`none` means some encode failed, which the `.unwrap()` turns into a
panic before the store command. -/
def encodeEntries {V : Type} (enc : ℚ × V → Option Bytes) :
    List (TimeValue V) → Option (List (ℚ × Bytes))
  | [] => some []
  | v :: vs =>
    (enc (v.timestamp.val, v.value)).bind fun rval =>
      (encodeEntries enc vs).map fun rest => (v.timestamp.val, rval) :: rest

/-- `TimeSeries::add_multiple(vals)` (time_series.rs, lines 326–337). -/
def addMultiple {V : Type} (enc : ℚ × V → Option Bytes)
    (vals : List (TimeValue V)) : WriteOutcome :=
  match encodeEntries enc vals with
  | some rvals => .ok [.zaddMultiple rvals]
  | none => .panicked

/-- The encode loop of `add_multiple_values` (lines 341–344):
`(ts.0, to_vec_named(&(ts.0, v)).unwrap())` over a slice of tuples. -/
def encodeTuples {V : Type} (enc : ℚ × V → Option Bytes) :
    List (Timestamp × V) → Option (List (ℚ × Bytes))
  | [] => some []
  | p :: ps =>
    (enc (p.1.val, p.2)).bind fun rval =>
      (encodeTuples enc ps).map fun rest => (p.1.val, rval) :: rest

/-- `TimeSeries::add_multiple_values(vals)` (time_series.rs, lines 340–348). -/
def addMultipleValues {V : Type} (enc : ℚ × V → Option Bytes)
    (vals : List (Timestamp × V)) : WriteOutcome :=
  match encodeTuples enc vals with
  | some rvals => .ok [.zaddMultiple rvals]
  | none => .panicked

/-! ## Extended `f64` domain for the `SystemTime` conversions

The claims about `into_system_time` need the non-finite `f64` values, so
here the raw timestamp value is an `F64`: a finite rational, or NaN, or
an infinity.  The public interface reaches all of them: `From<f64>`
wraps any `f64` unchanged, and `Sub` can produce negatives. -/

/-- An `f64` value: a finite (dyadic, but any rational is allowed here)
number, NaN, or an infinity. -/
inductive F64 where
  | finite : ℚ → F64
  | nan : F64
  | posInf : F64
  | negInf : F64
deriving DecidableEq

/-- `Duration::from_secs_f64` (Rust std, via `try_from_secs_f64`): panics
(`none`) when the value is NaN, infinite, negative, or overflows
`Duration` (at `2^64` seconds); otherwise the duration, in seconds.
(Sub-nanosecond rounding of the successful result is not modelled; no
claim depends on it.) -/
def durationFromSecsF64 : F64 → Option ℚ
  | .finite q => if 0 ≤ q ∧ q < 2 ^ 64 then some q else none
  | .nan => none
  | .posInf => none
  | .negInf => none

/-- `Timestamp::into_system_time` (time_series.rs, lines 65–68):
`UNIX_EPOCH + Duration::from_secs_f64(self.0)`; the result is the system
time as seconds since the epoch, `none` when `from_secs_f64` panics. -/
def intoSystemTime (raw : F64) : Option ℚ :=
  (durationFromSecsF64 raw).map fun d => 0 + d

/-- `impl From<Timestamp> for SystemTime` (time_series.rs, lines 87–91):
the identical body, `UNIX_EPOCH + Duration::from_secs_f64(ts.0)`. -/
def systemTimeFromTimestamp (raw : F64) : Option ℚ :=
  (durationFromSecsF64 raw).map fun d => 0 + d

/-! ## IEEE-754 binary64 model

The quantization claims that are about floating-point behaviour are
settled against an exact model of binary64 arithmetic: every `f64` value
is the dyadic rational it denotes, and every arithmetic operation is the
exact result rounded to 53 significant bits, round-to-nearest, ties to
even (the IEEE-754 default Rust uses).  Exponents stay far from the
overflow/subnormal range on all inputs considered, so neither is
modelled. -/

/-- Round an exact rational to the nearest integer, ties to even. -/
def roundEven (m : ℚ) : ℤ :=
  if m - (⌊m⌋ : ℚ) < 1 / 2 then ⌊m⌋
  else if 1 / 2 < m - (⌊m⌋ : ℚ) then ⌊m⌋ + 1
  else if ⌊m⌋ % 2 = 0 then ⌊m⌋ else ⌊m⌋ + 1

/-- Round an exact rational to the nearest binary64 value
(round-to-nearest, ties to even, 53-bit significand): scale `|q|` into
`[2^52, 2^53)`, round to an integer significand, and rescale. -/
def fl (q : ℚ) : ℚ :=
  if q = 0 then 0
  else
    (if q < 0 then -1 else 1) *
      ((roundEven (|q| / (2 : ℚ) ^ (Int.log 2 |q| - 52)) : ℚ) *
        (2 : ℚ) ^ (Int.log 2 |q| - 52))

/-- The exact value of the `f64` literal `1.0e-6` used by
`From<SystemTime> for Timestamp` (the nearest binary64 to `10⁻⁶`). -/
def microLit : ℚ :=
  4722366482869645 / 2 ^ 72

/-- `as_timestamp` (lib.rs, lines 40–46) under binary64 arithmetic:
`(ts * 1.0e6).round() / 1.0e6` with each `*`, `/` rounded to binary64
(`1.0e6` is exact; `.round()` of a binary64 in this range is exact). -/
def asTimestampIEEE (t : ℚ) : ℚ :=
  fl ((rustRound (fl (t * 1000000)) : ℚ) / 1000000)

/-- `From<SystemTime> for Timestamp` (time_series.rs, lines 77–85) under
binary64 arithmetic: `1.0e-6 * (ts / 1.0e-6).round()`. -/
def fromSystemTimeIEEE (t : ℚ) : ℚ :=
  fl (microLit * (rustRound (fl (t / microLit)) : ℚ))

/-- `Timestamp::with_resolution_f64` (time_series.rs, lines 51–57) under
binary64 arithmetic: `res * (ts / res).round()`. -/
def withResolutionIEEE (t res : ℚ) : ℚ :=
  fl (res * (rustRound (fl (t / res)) : ℚ))

/-- A decoder used by witnesses: reads the first byte as the timestamp. -/
def headDec : Bytes → Option (ℚ × Unit) :=
  fun b => some (((b.headD 0 : ℕ) : ℚ), ())

/-- A decoder that fails exactly on an empty member (a corrupt entry). -/
def failDec : Bytes → Option (ℚ × Unit) :=
  fun b => if b.isEmpty then none else some (((b.headD 0 : ℕ) : ℚ), ())

/-- A codec that rejects every value. -/
def rejectEnc : ℚ × Unit → Option Bytes :=
  fun _ => none

/-- A codec used by witnesses: encodes the value as a single byte. -/
def constEnc : ℚ × Nat → Option Bytes :=
  fun p => some [p.2]

/-! ## Basic facts about `rustRound` -/

theorem rustRound_intCast (n : ℤ) : rustRound (n : ℚ) = n := by
  unfold rustRound
  have h : ⌊(n : ℚ) + 1 / 2⌋ = n := by
    rw [Int.floor_int_add]
    norm_num
  by_cases hn : (0 : ℚ) ≤ (n : ℚ)
  · rw [if_pos hn, h]
  · have h2 : ⌊-(n : ℚ) + 1 / 2⌋ = -n := by
      rw [show -(n : ℚ) = ((-n : ℤ) : ℚ) by push_cast; ring, Int.floor_int_add]
      norm_num
    rw [if_neg hn, h2, neg_neg]

theorem rustRound_neg (x : ℚ) : rustRound (-x) = -rustRound x := by
  unfold rustRound
  rcases lt_trichotomy x 0 with h | h | h
  · have h1 : ¬ (0 : ℚ) ≤ x := not_le.mpr h
    have h2 : (0 : ℚ) ≤ -x := by linarith
    simp [h1, h2]
  · subst h; norm_num
  · have h1 : (0 : ℚ) ≤ x := le_of_lt h
    have h2 : ¬ (0 : ℚ) ≤ -x := by
      intro hc
      exact absurd (by linarith : x ≤ 0) (not_le.mpr h)
    simp [h1, h2]

theorem rustRound_nonneg_eq (x : ℚ) (hx : 0 ≤ x) :
    rustRound x = ⌊x + 1 / 2⌋ := by
  unfold rustRound
  simp [hx]

theorem abs_sub_rustRound_le (x : ℚ) : |x - (rustRound x : ℚ)| ≤ 1 / 2 := by
  have key : ∀ y : ℚ, 0 ≤ y → |y - (rustRound y : ℚ)| ≤ 1 / 2 := by
    intro y hy
    rw [rustRound_nonneg_eq y hy]
    have h1 : (⌊y + 1 / 2⌋ : ℚ) ≤ y + 1 / 2 := Int.floor_le _
    have h2 : y + 1 / 2 - 1 < (⌊y + 1 / 2⌋ : ℚ) := Int.sub_one_lt_floor _
    rw [abs_le]
    constructor <;> linarith
  rcases le_or_lt 0 x with hx | hx
  · exact key x hx
  · have h := key (-x) (by linarith)
    rw [rustRound_neg] at h
    calc |x - (rustRound x : ℚ)| = |(-x) - ((-rustRound x : ℤ) : ℚ)| := by
          rw [← abs_neg]; push_cast; ring_nf
      _ ≤ 1 / 2 := h

theorem rustRound_tie_away (n : ℕ) : rustRound ((n : ℚ) + 1 / 2) = n + 1 := by
  have hx : (0 : ℚ) ≤ (n : ℚ) + 1 / 2 := by positivity
  rw [rustRound_nonneg_eq _ hx]
  rw [show (n : ℚ) + 1 / 2 + 1 / 2 = ((n : ℤ) : ℚ) + 1 by push_cast; ring]
  rw [show ((n : ℤ) : ℚ) + 1 = (((n : ℤ) + 1 : ℤ) : ℚ) by push_cast; ring]
  exact Int.floor_intCast _

/-! ### Evaluation lemmas for the binary64 model -/

theorem roundEven_eq_low {x : ℚ} {n : ℤ} (h1 : (n : ℚ) ≤ x)
    (h2 : x < n + 1) (h3 : x < (n : ℚ) + 1 / 2) : roundEven x = n := by
  have hf : ⌊x⌋ = n := Int.floor_eq_iff.mpr ⟨h1, h2⟩
  unfold roundEven
  rw [hf, if_pos (by linarith)]

theorem roundEven_eq_high {x : ℚ} {n : ℤ} (h1 : (n : ℚ) ≤ x)
    (h2 : x < n + 1) (h3 : (n : ℚ) + 1 / 2 < x) : roundEven x = n + 1 := by
  have hf : ⌊x⌋ = n := Int.floor_eq_iff.mpr ⟨h1, h2⟩
  unfold roundEven
  rw [hf, if_neg (by linarith), if_pos (by linarith)]

theorem rustRound_eval {x : ℚ} {n : ℤ} (hx : 0 ≤ x)
    (h1 : (n : ℚ) ≤ x + 1 / 2) (h2 : x + 1 / 2 < n + 1) : rustRound x = n := by
  rw [rustRound_nonneg_eq x hx]
  exact Int.floor_eq_iff.mpr ⟨h1, h2⟩

theorem fl_eval {q : ℚ} {e m : ℤ} (hq : 0 < q)
    (h1 : (2 : ℚ) ^ e ≤ q) (h2 : q < (2 : ℚ) ^ (e + 1))
    (h3 : roundEven (q / (2 : ℚ) ^ (e - 52)) = m) :
    fl q = (m : ℚ) * (2 : ℚ) ^ (e - 52) := by
  have hb : (1 : ℕ) < 2 := one_lt_two
  have hcast : (((2 : ℕ) : ℚ)) = (2 : ℚ) := by norm_num
  have hle : e ≤ Int.log 2 q := by
    rw [← Int.zpow_le_iff_le_log hb hq, hcast]
    exact h1
  have hlt : Int.log 2 q < e + 1 := by
    rw [← Int.lt_zpow_iff_log_lt hb hq, hcast]
    exact h2
  have hlog : Int.log 2 q = e := by omega
  have habs : |q| = q := abs_of_pos hq
  unfold fl
  rw [if_neg (ne_of_gt hq), if_neg (not_lt.mpr hq.le), habs, hlog, h3]
  ring

theorem fl_third : fl (1 / 3) = 6004799503160661 / 2 ^ 54 := by
  have h3 : roundEven ((1 / 3 : ℚ) / (2 : ℚ) ^ ((-2 : ℤ) - 52)) = 6004799503160661 := by
    have hx : (1 / 3 : ℚ) / (2 : ℚ) ^ ((-2 : ℤ) - 52) = 2 ^ 54 / 3 := by norm_num
    rw [hx]
    exact roundEven_eq_low (by norm_num) (by norm_num) (by norm_num)
  have h := fl_eval (e := -2) (by norm_num) (by norm_num) (by norm_num) h3
  rw [h]
  norm_num

/-- Value of the lib.rs quantizer at `t₉ = 0x1.acab078c9eabep+29` seconds
under binary64 arithmetic. -/
theorem asTimestampIEEE_at_t9 :
    asTimestampIEEE (3770604342015327 / 2 ^ 22) = 1885302171007663 / 2097152 := by
  have h1 : fl ((3770604342015327 / 2 ^ 22 : ℚ) * 1000000) = 3595928518309905 / 4 := by
    have hq : (3770604342015327 / 2 ^ 22 : ℚ) * 1000000
        = 58915692843989484375 / 65536 := by norm_num
    rw [hq]
    have h3 : roundEven ((58915692843989484375 / 65536 : ℚ) / (2 : ℚ) ^ ((49 : ℤ) - 52))
        = 7191857036619810 := by
      have hx : (58915692843989484375 / 65536 : ℚ) / (2 : ℚ) ^ ((49 : ℤ) - 52)
          = 58915692843989484375 / 8192 := by norm_num
      rw [hx]
      exact roundEven_eq_low (by norm_num) (by norm_num) (by norm_num)
    have h := fl_eval (e := 49) (by norm_num) (by norm_num) (by norm_num) h3
    rw [h]
    norm_num
  unfold asTimestampIEEE
  rw [h1]
  have h2 : rustRound (3595928518309905 / 4 : ℚ) = 898982129577476 :=
    rustRound_eval (by norm_num) (by norm_num) (by norm_num)
  rw [h2]
  have hq2 : ((898982129577476 : ℤ) : ℚ) / 1000000 = 224745532394369 / 250000 := by
    norm_num
  rw [hq2]
  have h3 : roundEven ((224745532394369 / 250000 : ℚ) / (2 : ℚ) ^ ((29 : ℤ) - 52))
      = 7541208684030652 := by
    have hx : (224745532394369 / 250000 : ℚ) / (2 : ℚ) ^ ((29 : ℤ) - 52)
        = 117831385687978934272 / 15625 := by norm_num
    rw [hx]
    have hr := roundEven_eq_high (x := 117831385687978934272 / 15625)
      (n := 7541208684030651) (by norm_num) (by norm_num) (by norm_num)
    rw [hr]
    norm_num
  have h := fl_eval (e := 29) (by norm_num) (by norm_num) (by norm_num) h3
  rw [h]
  norm_num

/-- Value of the `From<SystemTime>` quantizer at the same instant under
binary64 arithmetic: one ulp lower. -/
theorem fromSystemTimeIEEE_at_t9 :
    fromSystemTimeIEEE (3770604342015327 / 2 ^ 22) = 7541208684030651 / 8388608 := by
  have h1 : fl ((3770604342015327 / 2 ^ 22 : ℚ) / microLit) = 3595928518309905 / 4 := by
    have hq : (3770604342015327 / 2 ^ 22 : ℚ) / microLit
        = 4245323077415450232945584898048 / 4722366482869645 := by
      norm_num [microLit]
    rw [hq]
    have h3 : roundEven ((4245323077415450232945584898048 / 4722366482869645 : ℚ)
        / (2 : ℚ) ^ ((49 : ℤ) - 52)) = 7191857036619810 := by
      have hx : (4245323077415450232945584898048 / 4722366482869645 : ℚ)
          / (2 : ℚ) ^ ((49 : ℤ) - 52)
          = 33962584619323601863564679184384 / 4722366482869645 := by norm_num
      rw [hx]
      exact roundEven_eq_low (by norm_num) (by norm_num) (by norm_num)
    have h := fl_eval (e := 49) (by norm_num) (by norm_num) (by norm_num) h3
    rw [h]
    norm_num
  unfold fromSystemTimeIEEE
  rw [h1]
  have h2 : rustRound (3595928518309905 / 4 : ℚ) = 898982129577476 :=
    rustRound_eval (by norm_num) (by norm_num) (by norm_num)
  rw [h2]
  have hq2 : microLit * ((898982129577476 : ℤ) : ℚ)
      = 1061330769353862199658959029005 / 1180591620717411303424 := by
    norm_num [microLit]
  rw [hq2]
  have h3 : roundEven ((1061330769353862199658959029005 / 1180591620717411303424 : ℚ)
      / (2 : ℚ) ^ ((29 : ℤ) - 52)) = 7541208684030651 := by
    have hx : (1061330769353862199658959029005 / 1180591620717411303424 : ℚ)
        / (2 : ℚ) ^ ((29 : ℤ) - 52)
        = 1061330769353862199658959029005 / 140737488355328 := by norm_num
    rw [hx]
    exact roundEven_eq_low (by norm_num) (by norm_num) (by norm_num)
  have h := fl_eval (e := 29) (by norm_num) (by norm_num) (by norm_num) h3
  rw [h]
  norm_num

/-- First quantization of `t₆ = 0x1.47d59c77617bbp+48` at resolution
`r₆ = 0x1.999999999999ap-4` (the binary64 value of `0.1`). -/
theorem withResolutionIEEE_at_t6 :
    withResolutionIEEE (5767324086179771 / 2 ^ 4) (3602879701896397 / 2 ^ 55)
      = 1441831021544943 / 4 := by
  have h1 : fl ((5767324086179771 / 2 ^ 4 : ℚ) / (3602879701896397 / 2 ^ 55))
      = 7209155107724713 / 2 := by
    have hq : (5767324086179771 / 2 ^ 4 : ℚ) / (3602879701896397 / 2 ^ 55)
        = 12986859302722051517589338718208 / 3602879701896397 := by norm_num
    rw [hq]
    have h3 : roundEven ((12986859302722051517589338718208 / 3602879701896397 : ℚ)
        / (2 : ℚ) ^ ((51 : ℤ) - 52)) = 7209155107724713 := by
      have hx : (12986859302722051517589338718208 / 3602879701896397 : ℚ)
          / (2 : ℚ) ^ ((51 : ℤ) - 52)
          = 25973718605444103035178677436416 / 3602879701896397 := by norm_num
      rw [hx]
      exact roundEven_eq_low (by norm_num) (by norm_num) (by norm_num)
    have h := fl_eval (e := 51) (by norm_num) (by norm_num) (by norm_num) h3
    rw [h]
    norm_num
  unfold withResolutionIEEE
  rw [h1]
  have h2 : rustRound (7209155107724713 / 2 : ℚ) = 3604577553862357 :=
    rustRound_eval (by norm_num) (by norm_num) (by norm_num)
  rw [h2]
  have hq2 : (3602879701896397 / 2 ^ 55 : ℚ) * ((3604577553862357 : ℤ) : ℚ)
      = 12986859302722052688864812227729 / 36028797018963968 := by norm_num
  rw [hq2]
  have h3 : roundEven ((12986859302722052688864812227729 / 36028797018963968 : ℚ)
      / (2 : ℚ) ^ ((48 : ℤ) - 52)) = 5767324086179772 := by
    have hx : (12986859302722052688864812227729 / 36028797018963968 : ℚ)
        / (2 : ℚ) ^ ((48 : ℤ) - 52)
        = 12986859302722052688864812227729 / 2251799813685248 := by norm_num
    rw [hx]
    have hr := roundEven_eq_high (x := 12986859302722052688864812227729 / 2251799813685248)
      (n := 5767324086179771) (by norm_num) (by norm_num) (by norm_num)
    rw [hr]
    norm_num
  have h := fl_eval (e := 48) (by norm_num) (by norm_num) (by norm_num) h3
  rw [h]
  norm_num

/-- Requantizing the already-quantized value at the same resolution moves
it up by one ulp: idempotence fails under binary64 arithmetic. -/
theorem withResolutionIEEE_at_q1 :
    withResolutionIEEE (1441831021544943 / 4) (3602879701896397 / 2 ^ 55)
      = 5767324086179773 / 16 := by
  have h1 : fl ((1441831021544943 / 4 : ℚ) / (3602879701896397 / 2 ^ 55))
      = 7209155107724715 / 2 := by
    have hq : (1441831021544943 / 4 : ℚ) / (3602879701896397 / 2 ^ 55)
        = 12986859302722053769389152403456 / 3602879701896397 := by norm_num
    rw [hq]
    have h3 : roundEven ((12986859302722053769389152403456 / 3602879701896397 : ℚ)
        / (2 : ℚ) ^ ((51 : ℤ) - 52)) = 7209155107724715 := by
      have hx : (12986859302722053769389152403456 / 3602879701896397 : ℚ)
          / (2 : ℚ) ^ ((51 : ℤ) - 52)
          = 25973718605444107538778304806912 / 3602879701896397 := by norm_num
      rw [hx]
      have hr := roundEven_eq_high (x := 25973718605444107538778304806912 / 3602879701896397)
        (n := 7209155107724714) (by norm_num) (by norm_num) (by norm_num)
      rw [hr]
      norm_num
    have h := fl_eval (e := 51) (by norm_num) (by norm_num) (by norm_num) h3
    rw [h]
    norm_num
  unfold withResolutionIEEE
  rw [h1]
  have h2 : rustRound (7209155107724715 / 2 : ℚ) = 3604577553862358 :=
    rustRound_eval (by norm_num) (by norm_num) (by norm_num)
  rw [h2]
  have hq2 : (3602879701896397 / 2 ^ 55 : ℚ) * ((3604577553862358 : ℤ) : ℚ)
      = 6493429651361028145872257062063 / 18014398509481984 := by norm_num
  rw [hq2]
  have h3 : roundEven ((6493429651361028145872257062063 / 18014398509481984 : ℚ)
      / (2 : ℚ) ^ ((48 : ℤ) - 52)) = 5767324086179773 := by
    have hx : (6493429651361028145872257062063 / 18014398509481984 : ℚ)
        / (2 : ℚ) ^ ((48 : ℤ) - 52)
        = 6493429651361028145872257062063 / 1125899906842624 := by norm_num
    rw [hx]
    exact roundEven_eq_low (by norm_num) (by norm_num) (by norm_num)
  have h := fl_eval (e := 48) (by norm_num) (by norm_num) (by norm_num) h3
  rw [h]
  norm_num

/-! ## Supporting lemmas for the store operations -/

theorem mem_zrangebyscore {store : List Entry} {lo hi : Bound} {e : Entry} :
    e ∈ zrangebyscore store lo hi ↔
      e ∈ store ∧ lo.lowerHolds e.score = true ∧ hi.upperHolds e.score = true := by
  simp [zrangebyscore, List.mem_filter, Bool.and_eq_true]

theorem lowerHolds_incl {a s : ℚ} : Bound.lowerHolds (.incl a) s = true ↔ a ≤ s := by
  simp [Bound.lowerHolds]

theorem upperHolds_excl {b s : ℚ} : Bound.upperHolds (.excl b) s = true ↔ s < b := by
  simp [Bound.upperHolds]

theorem decodeAll_mem_exists {V : Type} (dec : Bytes → Option (ℚ × V)) :
    ∀ (es : List Entry) (vs : List (TimeValue V)),
      decodeAll dec es = some vs →
      ∀ v ∈ vs, ∃ e ∈ es, dec e.member = some (v.timestamp.val, v.value) := by
  intro es
  induction es with
  | nil =>
    intro vs h v hv
    simp only [decodeAll, Option.some.injEq] at h
    subst h
    simp at hv
  | cons e es ih =>
    intro vs h v hv
    simp only [decodeAll, Option.bind_eq_some, Option.map_eq_some'] at h
    obtain ⟨p, hp, rest, hrest, hvs⟩ := h
    subst hvs
    rcases List.mem_cons.mp hv with hv | hv
    · subst hv
      exact ⟨e, List.mem_cons_self e es, by simpa using hp⟩
    · obtain ⟨e', he', hd⟩ := ih rest hrest v hv
      exact ⟨e', List.mem_cons_of_mem e he', hd⟩

theorem decodeAll_pairwise {V : Type} (dec : Bytes → Option (ℚ × V)) :
    ∀ (es : List Entry) (vs : List (TimeValue V)),
      decodeAll dec es = some vs →
      (∀ e ∈ es, ∀ p : ℚ × V, dec e.member = some p → p.1 = e.score) →
      es.Pairwise (fun a b => a.score ≤ b.score) →
      vs.Pairwise (fun a b => a.timestamp.val ≤ b.timestamp.val) := by
  intro es
  induction es with
  | nil =>
    intro vs h _ _
    simp only [decodeAll, Option.some.injEq] at h
    subst h
    exact List.Pairwise.nil
  | cons e es ih =>
    intro vs h hwf hsort
    simp only [decodeAll, Option.bind_eq_some, Option.map_eq_some'] at h
    obtain ⟨p, hp, rest, hrest, hvs⟩ := h
    subst hvs
    obtain ⟨hhead, htail⟩ := List.pairwise_cons.mp hsort
    refine List.pairwise_cons.mpr ⟨?_, ?_⟩
    · intro b hb
      obtain ⟨e', he', hd⟩ := decodeAll_mem_exists dec es rest hrest b hb
      have h1 : p.1 = e.score := hwf e (List.mem_cons_self e es) p hp
      have h2 : b.timestamp.val = e'.score :=
        hwf e' (List.mem_cons_of_mem e he') _ hd
      show p.1 ≤ b.timestamp.val
      rw [h1, h2]
      exact hhead e' he'
    · exact ih rest hrest (fun e' he' => hwf e' (List.mem_cons_of_mem e he')) htail

theorem encodeEntries_forall₂ {V : Type} (enc : ℚ × V → Option Bytes) :
    ∀ (vals : List (TimeValue V)) (rvals : List (ℚ × Bytes)),
      encodeEntries enc vals = some rvals →
      List.Forall₂ (fun (w : TimeValue V) (it : ℚ × Bytes) =>
        it.1 = w.timestamp.val ∧ enc (w.timestamp.val, w.value) = some it.2)
        vals rvals := by
  intro vals
  induction vals with
  | nil =>
    intro rvals h
    simp only [encodeEntries, Option.some.injEq] at h
    subst h
    exact List.Forall₂.nil
  | cons w ws ih =>
    intro rvals h
    simp only [encodeEntries, Option.bind_eq_some, Option.map_eq_some'] at h
    obtain ⟨rval, hr, rest, hrest, hvs⟩ := h
    subst hvs
    exact List.Forall₂.cons ⟨rfl, hr⟩ (ih rest hrest)

theorem encodeTuples_forall₂ {V : Type} (enc : ℚ × V → Option Bytes) :
    ∀ (tvals : List (Timestamp × V)) (rvals : List (ℚ × Bytes)),
      encodeTuples enc tvals = some rvals →
      List.Forall₂ (fun (p : Timestamp × V) (it : ℚ × Bytes) =>
        it.1 = p.1.val ∧ enc (p.1.val, p.2) = some it.2)
        tvals rvals := by
  intro tvals
  induction tvals with
  | nil =>
    intro rvals h
    simp only [encodeTuples, Option.some.injEq] at h
    subst h
    exact List.Forall₂.nil
  | cons w ws ih =>
    intro rvals h
    simp only [encodeTuples, Option.bind_eq_some, Option.map_eq_some'] at h
    obtain ⟨rval, hr, rest, hrest, hvs⟩ := h
    subst hvs
    exact List.Forall₂.cons ⟨rfl, hr⟩ (ih rest hrest)

/-! ## Claim theorems -/

/-- C1: `get_range(ts1, ts2)` queries the half-open interval `[ts1, ts2)`:
the score-range query it builds has inclusive lower bound `ts1.as_raw()`
and an exclusive upper bound wrapping `ts2.as_raw()`, so a stored entry
with score equal to `ts1` is selected (whenever the interval is
non-degenerate), an entry with score equal to `ts2` is never selected,
and the decoded results come back in non-decreasing timestamp order. -/
theorem getRange_halfOpen_interval {V : Type} (dec : Bytes → Option (ℚ × V))
    (store : List Entry) (ts1 ts2 : Timestamp)
    (hsort : store.Pairwise (fun a b => a.score ≤ b.score))
    (hwf : ∀ e ∈ store, ∀ p : ℚ × V, dec e.member = some p → p.1 = e.score) :
    getRange dec store ts1 ts2
        = getRangeAny dec store (.incl ts1.val) (.excl ts2.val)
      ∧ (∀ e ∈ store,
          e ∈ zrangebyscore store (.incl ts1.val) (.excl ts2.val)
            ↔ ts1.val ≤ e.score ∧ e.score < ts2.val)
      ∧ (∀ e ∈ store, e.score = ts1.val → ts1.val < ts2.val →
          e ∈ zrangebyscore store (.incl ts1.val) (.excl ts2.val))
      ∧ (∀ e ∈ store, e.score = ts2.val →
          e ∉ zrangebyscore store (.incl ts1.val) (.excl ts2.val))
      ∧ (∀ vs, getRange dec store ts1 ts2 = .ok vs →
          vs.Pairwise (fun a b => a.timestamp.val ≤ b.timestamp.val)) := by
  refine ⟨rfl, ?_, ?_, ?_, ?_⟩
  · intro e he
    rw [mem_zrangebyscore]
    constructor
    · rintro ⟨-, h1, h2⟩
      exact ⟨lowerHolds_incl.mp h1, upperHolds_excl.mp h2⟩
    · rintro ⟨h1, h2⟩
      exact ⟨he, lowerHolds_incl.mpr h1, upperHolds_excl.mpr h2⟩
  · intro e he h1 h2
    rw [mem_zrangebyscore]
    exact ⟨he, lowerHolds_incl.mpr (le_of_eq h1.symm),
      upperHolds_excl.mpr (by rw [h1]; exact h2)⟩
  · intro e he h1 hmem
    rw [mem_zrangebyscore] at hmem
    obtain ⟨-, -, h2⟩ := hmem
    have := upperHolds_excl.mp h2
    rw [h1] at this
    exact lt_irrefl _ this
  · intro vs hvs
    have hsf : (zrangebyscore store (.incl ts1.val) (.excl ts2.val)).Pairwise
        (fun a b => a.score ≤ b.score) := List.Pairwise.filter _ hsort
    have hwfF : ∀ e ∈ zrangebyscore store (.incl ts1.val) (.excl ts2.val),
        ∀ p : ℚ × V, dec e.member = some p → p.1 = e.score :=
      fun e he => hwf e (List.mem_filter.mp he).1
    unfold getRange getRangeAny at hvs
    split at hvs
    · rename_i ws hws
      cases hvs
      exact decodeAll_pairwise dec _ _ hws hwfF hsf
    · cases hvs

/-- C1 witness: the theorem applied at a two-entry store with the
head-byte decoder. -/
theorem getRange_halfOpen_interval_witness :
    (⟨1, [1]⟩ : Entry) ∈
      zrangebyscore [⟨1, [1]⟩, ⟨2, [2]⟩] (.incl 1) (.excl 2)
    ↔ (1 : ℚ) ≤ 1 ∧ (1 : ℚ) < 2 :=
  (getRange_halfOpen_interval headDec [⟨1, [1]⟩, ⟨2, [2]⟩] ⟨1⟩ ⟨2⟩
    (by norm_num [List.pairwise_cons])
    (by
      intro e he p hp
      simp only [List.mem_cons, List.not_mem_nil, or_false] at he
      rcases he with rfl | rfl <;>
        · simp only [headDec, List.headD, Option.some.injEq] at hp
          subst hp
          norm_num)).2.1 ⟨1, [1]⟩ (by simp)

/-- C2: `purge_before(ts)` is a single remove-by-score-range command with
bounds `-inf` and exclusive `ts`; it removes exactly the stored points
with score strictly below `ts.as_raw()` and leaves every point with score
at least `ts.as_raw()` unchanged (same entries, same order). -/
theorem purgeBefore_strictly_less (store : List Entry) (ts : Timestamp) :
    purgeBefore store ts = zrembyscore store .negInf (.excl ts.val)
      ∧ purgeBefore store ts = store.filter (fun e => decide (ts.val ≤ e.score))
      ∧ (∀ e ∈ store, e ∈ purgeBefore store ts ↔ ts.val ≤ e.score) := by
  have hfe : purgeBefore store ts
      = store.filter (fun e => decide (ts.val ≤ e.score)) := by
    unfold purgeBefore zrembyscore
    refine List.filter_congr ?_
    intro e _
    simp only [Bound.lowerHolds, Bound.upperHolds, Bool.true_and, ← decide_not,
      decide_eq_decide]
    exact not_lt
  refine ⟨rfl, hfe, ?_⟩
  intro e he
  rw [hfe]
  simp [List.mem_filter, he]

/-- C2 witness: the theorem applied to a concrete three-entry store. -/
theorem purgeBefore_strictly_less_witness :
    purgeBefore [⟨2, [42]⟩, ⟨3, [99]⟩, ⟨4, [13]⟩] ⟨3⟩
        = zrembyscore [⟨2, [42]⟩, ⟨3, [99]⟩, ⟨4, [13]⟩] .negInf (.excl 3)
      ∧ ((⟨3, [99]⟩ : Entry) ∈ purgeBefore [⟨2, [42]⟩, ⟨3, [99]⟩, ⟨4, [13]⟩] ⟨3⟩
          ↔ (3 : ℚ) ≤ 3) :=
  ⟨(purgeBefore_strictly_less [⟨2, [42]⟩, ⟨3, [99]⟩, ⟨4, [13]⟩] ⟨3⟩).1,
    (purgeBefore_strictly_less [⟨2, [42]⟩, ⟨3, [99]⟩, ⟨4, [13]⟩] ⟨3⟩).2.2
      ⟨3, [99]⟩ (by simp)⟩

/-- C3: the read paths do not return a tagged `DecodeError` when an entry
fails to decode — the per-entry `.unwrap()` panics instead (and no
partial result is returned as success).  Evaluated on a store holding a
decodable member `[1]` at score 1 and an undecodable member `[]` at
score 2: every read call panics, none returns `Ok` or `Err`. -/
theorem reads_panic_on_decode_failure :
    getRange failDec [⟨1, [1]⟩, ⟨2, []⟩] ⟨0⟩ ⟨3⟩ = .panicked
      ∧ getFrom failDec [⟨1, [1]⟩, ⟨2, []⟩] ⟨0⟩ = .panicked
      ∧ getAll failDec [⟨1, [1]⟩, ⟨2, []⟩] = .panicked
      ∧ getRangeAny failDec [⟨1, [1]⟩, ⟨2, []⟩] .negInf .posInf = .panicked
      ∧ (∀ vs, getAll failDec [⟨1, [1]⟩, ⟨2, []⟩] ≠ .ok vs)
      ∧ getAll failDec [⟨1, [1]⟩, ⟨2, []⟩] ≠ .err .decodeError := by
  have hall : getRangeAny failDec [⟨1, [1]⟩, ⟨2, []⟩] .negInf .posInf = .panicked := by
    have hz : zrangebyscore [⟨1, [1]⟩, ⟨2, []⟩] Bound.negInf Bound.posInf
        = [⟨1, [1]⟩, ⟨2, []⟩] := by
      simp [zrangebyscore, Bound.lowerHolds, Bound.upperHolds]
    unfold getRangeAny
    rw [hz]
    have hd : decodeAll failDec [⟨1, [1]⟩, ⟨2, []⟩] = none := by
      simp [decodeAll, failDec]
    rw [hd]
  have hrange : getRange failDec [⟨1, [1]⟩, ⟨2, []⟩] ⟨0⟩ ⟨3⟩ = .panicked := by
    have hz : zrangebyscore [⟨1, [1]⟩, ⟨2, []⟩] (Bound.incl 0) (Bound.excl 3)
        = [⟨1, [1]⟩, ⟨2, []⟩] := by
      simp only [zrangebyscore, Bound.lowerHolds, Bound.upperHolds]
      norm_num
    unfold getRange getRangeAny
    rw [hz]
    have hd : decodeAll failDec [⟨1, [1]⟩, ⟨2, []⟩] = none := by
      simp [decodeAll, failDec]
    rw [hd]
  have hfrom : getFrom failDec [⟨1, [1]⟩, ⟨2, []⟩] ⟨0⟩ = .panicked := by
    have hz : zrangebyscore [⟨1, [1]⟩, ⟨2, []⟩] (Bound.incl 0) Bound.posInf
        = [⟨1, [1]⟩, ⟨2, []⟩] := by
      simp only [zrangebyscore, Bound.lowerHolds, Bound.upperHolds]
      norm_num
    unfold getFrom getRangeAny
    rw [hz]
    have hd : decodeAll failDec [⟨1, [1]⟩, ⟨2, []⟩] = none := by
      simp [decodeAll, failDec]
    rw [hd]
  refine ⟨hrange, hfrom, hall, hall, ?_, ?_⟩
  · intro vs
    rw [getAll, hall]
    simp
  · rw [getAll, hall]
    simp

/-- C4: on a value the codec rejects, `add` returns the tagged encode
error, but `add_multiple` and `add_multiple_values` panic through the
`.unwrap()` in their encode closures instead of returning the tagged
failure; in every case the failure happens before any store command is
issued. -/
theorem addMultiple_panics_on_encode_failure :
    add rejectEnc ⟨0⟩ () = .errEncode
      ∧ addMultiple rejectEnc [⟨⟨0⟩, ()⟩] = .panicked
      ∧ addMultipleValues rejectEnc [(⟨0⟩, ())] = .panicked
      ∧ WriteOutcome.panicked ≠ WriteOutcome.errEncode := by
  refine ⟨rfl, rfl, rfl, ?_⟩
  intro h
  cases h

/-- C5: `with_resolution_f64(st, r)` computes `r * round(st / r)` where
`round` is Rust's round-half-away-from-zero (characterized below by its
nonnegative closed form, its odd symmetry, the nearest-integer bound, and
its tie direction), and the no-resolution constructors (`Timestamp::now`,
`From<SystemTime>`) use the 1-microsecond default. -/
theorem withResolution_rounds_half_away (st res : ℚ) (h : 0 < res) :
    Timestamp.withResolutionF64 st res = ⟨res * (rustRound (st / res) : ℚ)⟩
      ∧ (∀ x : ℚ, 0 ≤ x → rustRound x = ⌊x + 1 / 2⌋)
      ∧ (∀ x : ℚ, rustRound (-x) = -rustRound x)
      ∧ (∀ x : ℚ, |x - (rustRound x : ℚ)| ≤ 1 / 2)
      ∧ (∀ n : ℕ, rustRound ((n : ℚ) + 1 / 2) = n + 1)
      ∧ Timestamp.fromSystemTime st = Timestamp.withResolutionF64 st (1 / 1000000)
      ∧ Timestamp.now st = Timestamp.fromSystemTime st :=
  ⟨rfl, rustRound_nonneg_eq, rustRound_neg, abs_sub_rustRound_le,
    rustRound_tie_away, rfl, rfl⟩

/-- C5 witness: the theorem applied at `st = 3`, `res = 1/2`. -/
theorem withResolution_rounds_half_away_witness :
    (0 : ℚ) < 1 / 2
      ∧ Timestamp.withResolutionF64 3 (1 / 2)
          = ⟨1 / 2 * (rustRound ((3 : ℚ) / (1 / 2)) : ℚ)⟩
      ∧ Timestamp.fromSystemTime 3 = Timestamp.withResolutionF64 3 (1 / 1000000) :=
  ⟨by norm_num, (withResolution_rounds_half_away 3 (1 / 2) (by norm_num)).1,
    (withResolution_rounds_half_away 3 (1 / 2) (by norm_num)).2.2.2.2.2.1⟩

/-- C6 counterexample: under IEEE-754 binary64 arithmetic quantization is
not idempotent.  At `t = 0x1.47d59c77617bbp+48` seconds and resolution
`r = 0x1.999999999999ap-4` (the `f64` value written `0.1`, which is
positive), requantizing the already-quantized value moves it up by one
ulp. -/
theorem quantize_not_idempotent_ieee :
    (0 : ℚ) < 3602879701896397 / 2 ^ 55
      ∧ withResolutionIEEE
          (withResolutionIEEE (5767324086179771 / 2 ^ 4) (3602879701896397 / 2 ^ 55))
          (3602879701896397 / 2 ^ 55)
        ≠ withResolutionIEEE (5767324086179771 / 2 ^ 4) (3602879701896397 / 2 ^ 55) := by
  refine ⟨by norm_num, ?_⟩
  rw [withResolutionIEEE_at_t6, withResolutionIEEE_at_q1]
  norm_num

/-- C6 amended: in exact arithmetic the quantization `r * round(t / r)`
performed by `with_resolution_f64` is idempotent for every resolution
`r > 0`; under IEEE-754 double arithmetic the floating-point roundings
can break idempotence (see the counterexample). -/
theorem quantize_idempotent_exact (t r : ℚ) (h : 0 < r) :
    Timestamp.withResolutionF64 (Timestamp.withResolutionF64 t r).val r
      = Timestamp.withResolutionF64 t r := by
  have hne : r ≠ 0 := ne_of_gt h
  show (⟨r * (rustRound ((r * (rustRound (t / r) : ℚ)) / r) : ℚ)⟩ : Timestamp)
      = ⟨r * (rustRound (t / r) : ℚ)⟩
  rw [mul_div_cancel_left₀ _ hne, rustRound_intCast]

/-- C6 witness: idempotence at `t = 7/3`, `r = 1/2 > 0`. -/
theorem quantize_idempotent_exact_witness :
    (0 : ℚ) < 1 / 2
      ∧ Timestamp.withResolutionF64
          (Timestamp.withResolutionF64 (7 / 3) (1 / 2)).val (1 / 2)
        = Timestamp.withResolutionF64 (7 / 3) (1 / 2) :=
  ⟨by norm_num, quantize_idempotent_exact (7 / 3) (1 / 2) (by norm_num)⟩

/-- C7 counterexample: the multiple-of-resolution invariant is not
preserved by `Add<f64>`.  A timestamp built at resolution `r = 1` from
`st = 2` holds `2`, an integer multiple of `1`; offsetting it by the raw
second count `1/2` yields `5/2`, which is no integer multiple of `1`. -/
theorem add_raw_offset_breaks_invariant :
    (∃ n : ℤ, (Timestamp.withResolutionF64 2 1).val = 1 * (n : ℚ))
      ∧ ¬ (∃ n : ℤ,
          ((Timestamp.withResolutionF64 2 1).addF64 (1 / 2)).val = 1 * (n : ℚ)) := by
  have h2 : ((2 : ℚ) / 1) = ((2 : ℤ) : ℚ) := by norm_num
  constructor
  · refine ⟨2, ?_⟩
    show (1 : ℚ) * (rustRound ((2 : ℚ) / 1) : ℚ) = 1 * ((2 : ℤ) : ℚ)
    rw [h2, rustRound_intCast]
  · rintro ⟨n, hn⟩
    have hv : ((Timestamp.withResolutionF64 2 1).addF64 (1 / 2)).val = 5 / 2 := by
      show (1 : ℚ) * (rustRound ((2 : ℚ) / 1) : ℚ) + 1 / 2 = 5 / 2
      rw [h2, rustRound_intCast]
      norm_num
    rw [hv, one_mul] at hn
    have ha : (2 : ℚ) < (n : ℚ) := by rw [← hn]; norm_num
    have hb : (n : ℚ) < 3 := by rw [← hn]; norm_num
    have hai : (2 : ℤ) < n := by exact_mod_cast ha
    have hbi : n < 3 := by exact_mod_cast hb
    omega

/-- C7 amended: a timestamp built by `with_resolution_f64` at resolution
`r > 0` holds an integer multiple of `r`, and the additive/subtractive
offsets preserve that invariant exactly when the offset itself is an
integer multiple of `r`; `From<f64>` performs no quantization at all (it
wraps the given value unchanged), and an arbitrary raw offset can leave
the multiples of `r` (see the counterexample). -/
theorem resolution_multiple_invariant (t r : ℚ) (h : 0 < r) :
    (∃ n : ℤ, (Timestamp.withResolutionF64 t r).val = r * (n : ℚ))
      ∧ (∀ v d : ℚ, (∃ n : ℤ, v = r * (n : ℚ)) → (∃ m : ℤ, d = r * (m : ℚ)) →
          ∃ k : ℤ, ((Timestamp.fromF64 v).addF64 d).val = r * (k : ℚ))
      ∧ (∀ v d : ℚ, (∃ n : ℤ, v = r * (n : ℚ)) → (∃ m : ℤ, d = r * (m : ℚ)) →
          ∃ k : ℤ, ((Timestamp.fromF64 v).subF64 d).val = r * (k : ℚ))
      ∧ (∀ v : ℚ, (Timestamp.fromF64 v).val = v) := by
  refine ⟨⟨rustRound (t / r), rfl⟩, ?_, ?_, fun v => rfl⟩
  · rintro v d ⟨n, rfl⟩ ⟨m, rfl⟩
    refine ⟨n + m, ?_⟩
    show r * (n : ℚ) + r * (m : ℚ) = r * ((n + m : ℤ) : ℚ)
    push_cast
    ring
  · rintro v d ⟨n, rfl⟩ ⟨m, rfl⟩
    refine ⟨n - m, ?_⟩
    show r * (n : ℚ) - r * (m : ℚ) = r * ((n - m : ℤ) : ℚ)
    push_cast
    ring

/-- C7 witness: the amended invariant at `t = 7/3`, `r = 1/2`, offset `3/2`. -/
theorem resolution_multiple_invariant_witness :
    (0 : ℚ) < 1 / 2
      ∧ (∃ n : ℤ, (Timestamp.withResolutionF64 (7 / 3) (1 / 2)).val = 1 / 2 * (n : ℚ))
      ∧ (∃ k : ℤ, ((Timestamp.fromF64 1).addF64 (3 / 2)).val = 1 / 2 * (k : ℚ)) :=
  ⟨by norm_num, (resolution_multiple_invariant (7 / 3) (1 / 2) (by norm_num)).1,
    (resolution_multiple_invariant (7 / 3) (1 / 2) (by norm_num)).2.1 1 (3 / 2)
      ⟨2, by norm_num⟩ ⟨3, by norm_num⟩⟩

/-- C8: every write path sends, for each point, a member that is the
encoding of the pair `(timestamp.as_raw(), value)` together with a score
equal to that same `timestamp.as_raw()`: whenever a write succeeds, the
command it issued pairs each encoded member with the raw value of the
very timestamp encoded inside it. -/
theorem write_paths_score_payload_agree {V : Type} (enc : ℚ × V → Option Bytes)
    (ts : Timestamp) (v : V) (tv : TimeValue V)
    (vals : List (TimeValue V)) (tvals : List (Timestamp × V)) :
    (∀ cmds, add enc ts v = .ok cmds →
        ∃ rval, enc (ts.val, v) = some rval ∧ cmds = [.zadd ts.val rval])
      ∧ (∀ cmds, addValue enc tv = .ok cmds →
          ∃ rval, enc (tv.timestamp.val, tv.value) = some rval
            ∧ cmds = [.zadd tv.timestamp.val rval])
      ∧ (∀ cmds, addMultiple enc vals = .ok cmds →
          ∃ rvals, encodeEntries enc vals = some rvals
            ∧ cmds = [.zaddMultiple rvals]
            ∧ List.Forall₂ (fun (w : TimeValue V) (it : ℚ × Bytes) =>
                it.1 = w.timestamp.val
                  ∧ enc (w.timestamp.val, w.value) = some it.2) vals rvals)
      ∧ (∀ cmds, addMultipleValues enc tvals = .ok cmds →
          ∃ rvals, encodeTuples enc tvals = some rvals
            ∧ cmds = [.zaddMultiple rvals]
            ∧ List.Forall₂ (fun (p : Timestamp × V) (it : ℚ × Bytes) =>
                it.1 = p.1.val ∧ enc (p.1.val, p.2) = some it.2) tvals rvals) := by
  refine ⟨?_, ?_, ?_, ?_⟩
  · intro cmds h
    unfold add at h
    split at h
    · rename_i rval he
      cases h
      exact ⟨rval, he, rfl⟩
    · cases h
  · intro cmds h
    unfold addValue add at h
    split at h
    · rename_i rval he
      cases h
      exact ⟨rval, he, rfl⟩
    · cases h
  · intro cmds h
    unfold addMultiple at h
    split at h
    · rename_i rvals he
      cases h
      exact ⟨rvals, he, rfl, encodeEntries_forall₂ enc vals rvals he⟩
    · cases h
  · intro cmds h
    unfold addMultipleValues at h
    split at h
    · rename_i rvals he
      cases h
      exact ⟨rvals, he, rfl, encodeTuples_forall₂ enc tvals rvals he⟩
    · cases h

/-- C8 witness: the theorem applied to the single-byte codec, for both the
single-point and the batched path. -/
theorem write_paths_score_payload_agree_witness :
    (∃ rval, constEnc ((1 : ℚ), 7) = some rval
        ∧ [StoreCmd.zadd 1 [7]] = [.zadd 1 rval])
      ∧ (∃ rvals, encodeEntries constEnc [⟨⟨1⟩, 7⟩] = some rvals
          ∧ [StoreCmd.zaddMultiple [((1 : ℚ), [7])]] = [.zaddMultiple rvals]
          ∧ List.Forall₂ (fun (w : TimeValue Nat) (it : ℚ × Bytes) =>
              it.1 = w.timestamp.val
                ∧ constEnc (w.timestamp.val, w.value) = some it.2)
              [⟨⟨1⟩, 7⟩] rvals) :=
  ⟨(write_paths_score_payload_agree constEnc ⟨1⟩ 7 ⟨⟨1⟩, 7⟩ [] []).1
      [.zadd 1 [7]] rfl,
    (write_paths_score_payload_agree constEnc ⟨1⟩ 7 ⟨⟨1⟩, 7⟩ [⟨⟨1⟩, 7⟩] []).2.2.1
      [.zaddMultiple [((1 : ℚ), [7])]] rfl⟩

/-- C9 counterexample: the two quantizer variants do not return the same
`f64` under IEEE-754 binary64 arithmetic.  At
`ts = 0x1.acab078c9eabep+29` seconds (about 898982129.58, an ordinary
epoch instant), `as_timestamp` rounds to one ulp above the value
`From<SystemTime>` produces, because `1.0e-6` is not exactly
representable. -/
theorem asTimestamp_fromSystemTime_differ_ieee :
    asTimestampIEEE (3770604342015327 / 2 ^ 22)
      ≠ fromSystemTimeIEEE (3770604342015327 / 2 ^ 22) := by
  rw [asTimestampIEEE_at_t9, fromSystemTimeIEEE_at_t9]
  norm_num

/-- C9 amended: in exact arithmetic the two near-duplicate quantizers
agree: `(ts * 10⁶).round() / 10⁶` equals `10⁻⁶ * (ts / 10⁻⁶).round()`
for every input; under IEEE-754 double arithmetic they can differ in the
final ulp (see the counterexample). -/
theorem asTimestamp_eq_fromSystemTime_exact (st : ℚ) :
    asTimestamp st = (Timestamp.fromSystemTime st).val := by
  unfold asTimestamp Timestamp.fromSystemTime
  have harg : st / (1 / 1000000) = st * 1000000 := by
    field_simp
  rw [harg]
  ring

/-- C10: the conversions to `SystemTime` (`Timestamp::into_system_time`
and `From<Timestamp> for SystemTime`) succeed only on finite,
non-negative raw values; on a negative, NaN, or infinite raw value —
all reachable through the public interface, since `From<f64>` wraps any
value unchanged and subtraction can go below zero — they panic rather
than return a value or an error. -/
theorem intoSystemTime_panics_unless_finite_nonneg :
    (∀ q : ℚ, q < 0 →
        intoSystemTime (.finite q) = none
          ∧ systemTimeFromTimestamp (.finite q) = none)
      ∧ intoSystemTime .nan = none
      ∧ intoSystemTime .posInf = none
      ∧ intoSystemTime .negInf = none
      ∧ systemTimeFromTimestamp .nan = none
      ∧ systemTimeFromTimestamp .posInf = none
      ∧ systemTimeFromTimestamp .negInf = none
      ∧ (∀ (x : F64) (d : ℚ), intoSystemTime x = some d →
          ∃ q : ℚ, x = .finite q ∧ 0 ≤ q)
      ∧ (∀ v : ℚ, (Timestamp.fromF64 v).val = v)
      ∧ (Timestamp.subF64 ⟨0⟩ 1).val = -1 := by
  refine ⟨?_, rfl, rfl, rfl, rfl, rfl, rfl, ?_, fun v => rfl,
    by norm_num [Timestamp.subF64]⟩
  · intro q hq
    have hc : ¬ (0 ≤ q ∧ q < 2 ^ 64) := by
      rintro ⟨h1, -⟩
      linarith
    constructor <;>
      simp [intoSystemTime, systemTimeFromTimestamp, durationFromSecsF64, hc]
  · intro x d h
    cases x with
    | finite q =>
      by_cases hc : 0 ≤ q ∧ q < 2 ^ 64
      · exact ⟨q, rfl, hc.1⟩
      · simp [intoSystemTime, durationFromSecsF64, hc] at h
    | nan => cases h
    | posInf => cases h
    | negInf => cases h

/-- C10 witness: the theorem applied at the negative raw value `-1` and
at the successful conversion of the finite value `1`. -/
theorem intoSystemTime_panics_unless_finite_nonneg_witness :
    ((-1 : ℚ) < 0
        ∧ intoSystemTime (.finite (-1)) = none
        ∧ systemTimeFromTimestamp (.finite (-1)) = none)
      ∧ (∃ q : ℚ, F64.finite 1 = .finite q ∧ 0 ≤ q) :=
  ⟨⟨by norm_num,
      (intoSystemTime_panics_unless_finite_nonneg.1 (-1) (by norm_num)).1,
      (intoSystemTime_panics_unless_finite_nonneg.1 (-1) (by norm_num)).2⟩,
    intoSystemTime_panics_unless_finite_nonneg.2.2.2.2.2.2.2.1 (.finite 1) 1
      (by norm_num [intoSystemTime, durationFromSecsF64])⟩

end RedisZsetTs
